import Mathlib

section RatReducible
attribute [local semireducible] Rat.mul Rat.add Rat.sub Rat.inv Rat.ofScientific

set_option maxRecDepth 80000

deriving instance DecidableEq for Except

/-!
Verification of the ERCOT Settlement Point Price integration.

The development shallowly embeds the fetch/parse/derive pipeline of
`custom_components/ercot_spp` in Lean:

* text is modelled as `List Char`;
* Python floats are modelled as exact rationals `ℚ` (Python `round` is
  round-half-to-even, modelled by `rhe`/`pyRound`);
* the regex scans of `_async_update_data` are modelled by character-level
  scanners that follow the leftmost, non-overlapping, greedy semantics of
  `re.findall` / `re.search` on these patterns;
* the cell-to-number conversion `float(...)` is modelled by `parseFloat`,
  covering (finite) decimal literals with optional sign, fraction, exponent
  and surrounding ASCII whitespace; the special spellings `inf`/`nan` and
  digit-group underscores are outside the model;
* a failed conversion raises in Python; fallible steps here return
  `Except`/`Option`.
-/

namespace Ercot

/-- Letter `t` or `T` (the cell regexes are compiled with `re.IGNORECASE`). -/
def isTC (c : Char) : Bool := c = 't' || c = 'T'

/-- Letter `d` or `D` (the cell regexes are compiled with `re.IGNORECASE`). -/
def isDC (c : Char) : Bool := c = 'd' || c = 'D'

/-- The `[^>]*>` part of the cell pattern: drop characters up to and
including the first `>`; `none` when no `>` remains. -/
def dropAttrs : List Char → Option (List Char)
  | [] => none
  | c :: rest => if c = '>' then some rest else dropAttrs rest

/-- The closing `</td>` (case-insensitive) of the cell pattern, anchored at
the head of the input. -/
def dropCloseTd (s : List Char) : Option (List Char) :=
  match s with
  | c0 :: c1 :: c2 :: c3 :: c4 :: rest =>
    if c0 = '<' ∧ c1 = '/' ∧ isTC c2 ∧ isDC c3 ∧ c4 = '>' then some rest else none
  | _ => none

/-- One anchored attempt of the cell regex `<td[^>]*>([^<]+)</td>`
(case-insensitive): on success, the captured cell text and the remainder of
the input after the match. -/
def matchTd (s : List Char) : Option (List Char × List Char) :=
  match s with
  | c0 :: c1 :: c2 :: rest =>
    if c0 = '<' ∧ isTC c1 ∧ isDC c2 then
      match dropAttrs rest with
      | none => none
      | some afterGt =>
        let cell := afterGt.takeWhile (fun c => c != '<')
        let rest2 := afterGt.dropWhile (fun c => c != '<')
        if cell = [] then none
        else
          match dropCloseTd rest2 with
          | none => none
          | some rest3 => some (cell, rest3)
    else none
  | _ => none

/-- Fuelled left-to-right scan of `re.findall(r'<td[^>]*>([^<]+)</td>', html,
re.IGNORECASE)`: at each position try the anchored pattern; on a match emit
the capture and continue after the match, otherwise advance one character. -/
def findCellsGo : ℕ → List Char → List (List Char)
  | 0, _ => []
  | _ + 1, [] => []
  | n + 1, c :: t =>
    match matchTd (c :: t) with
    | some p => p.1 :: findCellsGo n p.2
    | none => findCellsGo n t

/-- The scan `cells = re.findall(r'<td[^>]*>([^<]+)</td>', html, re.IGNORECASE)`.
The fuel `s.length` is always sufficient: every step of the scan consumes at
least one character (`findCellsGo_fuel`). -/
def findCells (s : List Char) : List (List Char) := findCellsGo s.length s

/-- The literal part `Last Updated: ` of the timestamp pattern. -/
def captionChars : List Char := "Last Updated: ".toList

/-- One anchored attempt of `Last Updated: ([^<\n]+)`: the literal caption
followed by a nonempty greedy run of characters other than `<` and newline. -/
def matchCaption (s : List Char) : Option (List Char) :=
  if s.take captionChars.length = captionChars then
    let t := s.drop captionChars.length
    let cap := t.takeWhile (fun c => c != '<' && c != '\n')
    if cap = [] then none else some cap
  else none

/-- The search `re.search(r'Last Updated: ([^<\n]+)', html)` followed by `.group(1)`:
the capture at the first position where the whole pattern matches, `none`
when there is no such position. -/
def searchCaption : List Char → Option (List Char)
  | [] => none
  | c :: s =>
    match matchCaption (c :: s) with
    | some cap => some cap
    | none => searchCaption s

/-- ASCII whitespace stripped by Python's `float` (space, tab, newline,
carriage return, vertical tab, form feed). -/
def isPyWS (c : Char) : Bool :=
  c = ' ' || c = '\t' || c = '\n' || c = '\r' || c = Char.ofNat 11 || c = Char.ofNat 12

/-- Numeric value of a decimal digit string read most-significant first. -/
def digitsVal (l : List Char) : ℕ := l.foldl (fun a c => 10 * a + (c.toNat - '0'.toNat)) 0

/-- Mantissa of a Python float literal: `digits [. digits]` or `. digits`
(at least one digit overall); returns its value and the unread rest. -/
def parseMantissa (s : List Char) : Option (ℚ × List Char) :=
  let ip := s.takeWhile Char.isDigit
  let r1 := s.dropWhile Char.isDigit
  match r1 with
  | '.' :: t =>
    let fp := t.takeWhile Char.isDigit
    let r2 := t.dropWhile Char.isDigit
    if ip = [] ∧ fp = [] then none
    else some ((digitsVal ip : ℚ) + (digitsVal fp : ℚ) / (10 : ℚ) ^ fp.length, r2)
  | _ => if ip = [] then none else some ((digitsVal ip : ℚ), r1)

/-- Optional exponent part `([eE][+-]?digits)?` of a Python float literal;
returns the signed exponent and the unread rest.  A bare `e`/`E` with no
digits makes the whole literal invalid. -/
def parseExp (s : List Char) : Option (ℤ × List Char) :=
  match s with
  | c :: t =>
    if c = 'e' ∨ c = 'E' then
      let st : ℤ × List Char :=
        match t with
        | '+' :: u => (1, u)
        | '-' :: u => (-1, u)
        | _ => (1, t)
      let ds := st.2.takeWhile Char.isDigit
      let r := st.2.dropWhile Char.isDigit
      if ds = [] then none else some (st.1 * (digitsVal ds : ℤ), r)
    else some (0, s)
  | [] => some (0, [])

/-- Model of Python's `float(str)` on finite decimal literals: optional
surrounding ASCII whitespace, optional sign, mantissa, optional exponent.
Exact rational semantics stand in for IEEE doubles. -/
def parseFloat (s : List Char) : Option ℚ :=
  let t0 := s.dropWhile isPyWS
  let st : ℚ × List Char :=
    match t0 with
    | '+' :: u => (1, u)
    | '-' :: u => (-1, u)
    | _ => (1, t0)
  match parseMantissa st.2 with
  | none => none
  | some (m, r1) =>
    match parseExp r1 with
    | none => none
    | some (e, r2) =>
      if r2.all isPyWS then some (st.1 * m * (10 : ℚ) ^ e) else none

/-- The `zone_map` dictionary of `_async_update_data`, mapping each zone
identifier to its 0-indexed column in the 17-cell row. -/
def zone_map : List (String × ℕ) :=
  [("HB_BUSAVG", 2), ("HB_HOUSTON", 3), ("HB_HUBAVG", 4), ("HB_NORTH", 5),
   ("HB_PAN", 6), ("HB_SOUTH", 7), ("HB_WEST", 8), ("LZ_AEN", 9), ("LZ_CPS", 10),
   ("LZ_HOUSTON", 11), ("LZ_LCRA", 12), ("LZ_NORTH", 13), ("LZ_RAYBN", 14),
   ("LZ_SOUTH", 15), ("LZ_WEST", 16)]

/-- The lookup `col_idx = zone_map.get(self.zone, 13)`: exact-match lookup with the
LZ_NORTH column 13 as default for unknown zones. -/
def zoneCol (zone : String) : ℕ := (zone_map.lookup zone).getD 13

/-- The dictionary returned by one successful `_async_update_data` cycle. -/
structure PriceReading where
  price_mwh : ℚ
  timestamp : Option (List Char)
  date : List Char
  time : List Char
deriving DecidableEq

/-- The spec's taxonomy for the two parse-stage failures of a cycle
(`MalformedSourceError`, `PriceParseError`); in the Python source both are
raised exceptions. -/
inductive UpdateError where
  | malformedSource
  | priceParse
deriving DecidableEq

/-- The slice `last_row = cells[-17:]`. -/
def lastRow (cells : List (List Char)) : List (List Char) := cells.drop (cells.length - 17)

/-- The body of `_async_update_data` after the fetch: timestamp search, cell scan, the
17-cell floor, zone resolution, float conversion, and packaging of the
result record. -/
def updateData (zone : String) (html : List Char) : Except UpdateError PriceReading :=
  let timestamp := searchCaption html
  let cells := findCells html
  if cells.length < 17 then .error .malformedSource
  else
    let last_row := lastRow cells
    let col_idx := zoneCol zone
    match parseFloat (last_row.getD col_idx []) with
    | none => .error .priceParse
    | some price =>
      .ok { price_mwh := price, timestamp := timestamp,
            date := last_row.getD 0 [], time := last_row.getD 1 [] }

/-- The mutable pair `(self._last_export, self._total)` of
`ERCOTEarningsSensor`. -/
structure EarningsState where
  last_export : ℚ
  total : ℚ
deriving DecidableEq

/-- Constructor defaults of `ERCOTEarningsSensor`: `_last_export = 0`,
`_total = 0`. -/
def initialEarnings : EarningsState := ⟨0, 0⟩

/-- The per-cycle environment read by `_handle_coordinator_update`: the
export entity's state string (`none` when the entity is missing) and the
coordinator's current price and configured sellback percentage. -/
structure CycleInput where
  export_state : Option (List Char)
  price_mwh : ℚ
  sellback_percent : ℚ
deriving DecidableEq

/-- State transition of `ERCOTEarningsSensor._handle_coordinator_update`.
When `float(...)` on the export state raises in Python the assignments are
never reached, so that branch leaves the state unchanged here. -/
def handleCoordinatorUpdate (export_entity : Bool) (input : CycleInput)
    (st : EarningsState) : EarningsState :=
  if export_entity then
    match input.export_state with
    | none => st
    | some s =>
      if s = "unknown".toList ∨ s = "unavailable".toList then st
      else
        match parseFloat s with
        | none => st
        | some current_export =>
          let delta0 := current_export - st.last_export
          let delta := if delta0 < 0 then current_export else delta0
          let price_kwh := input.price_mwh / 1000
          let percent := input.sellback_percent / 100
          let rate := price_kwh * percent
          { last_export := current_export, total := st.total + delta * rate }
  else st

/-- A sequence of accumulator cycles, oldest first. -/
def runCycles (export_entity : Bool) (inputs : List CycleInput)
    (st : EarningsState) : EarningsState :=
  inputs.foldl (fun s i => handleCoordinatorUpdate export_entity i s) st

/-- Round half to even to an integer — the tie-breaking rule of Python's
builtin `round`. -/
def rhe (q : ℚ) : ℤ :=
  let f := ⌊q⌋
  let frac := q - (f : ℚ)
  if frac < 1 / 2 then f
  else if 1 / 2 < frac then f + 1
  else if f % 2 = 0 then f else f + 1

/-- Python's `round(x, n)` for nonnegative digit count `n`. -/
def pyRound (x : ℚ) (n : ℕ) : ℚ := (rhe (x * (10 : ℚ) ^ n) : ℚ) / (10 : ℚ) ^ n

/-- Sensor value `ERCOTPriceCentsKwhSensor.native_value`. -/
def priceCentsKwhValue (price_mwh : ℚ) : ℚ := pyRound (price_mwh / 1000 * 100) 2

/-- Sensor value `ERCOTSellbackRateSensor.native_value`. -/
def sellbackRateValue (price_mwh sellback_percent : ℚ) : ℚ :=
  let percent := sellback_percent / 100
  pyRound (price_mwh / 1000 * percent) 5

/-- Sensor value `ERCOTSellbackCentsSensor.native_value`. -/
def sellbackCentsValue (price_mwh sellback_percent : ℚ) : ℚ :=
  let percent := sellback_percent / 100
  pyRound (price_mwh / 1000 * percent * 100) 2

/-! ### Characterization of the cell scan

`TdDecomp s cell rest` is the declarative reading of one match of the cell
pattern anchored at the head of `s`: a case-insensitive `<td`, attribute
characters free of `>`, a `>`, a nonempty inner text free of `<`, and a
case-insensitive closing `</td>`; `rest` is the text after the match. -/

def TdDecomp (s cell rest : List Char) : Prop :=
  ∃ t1 d1 attrs t2 d2,
    isTC t1 ∧ isDC d1 ∧ (∀ c ∈ attrs, c ≠ '>') ∧
    cell ≠ [] ∧ (∀ c ∈ cell, c ≠ '<') ∧ isTC t2 ∧ isDC d2 ∧
    s = '<' :: t1 :: d1 :: (attrs ++ '>' :: (cell ++ '<' :: '/' :: t2 :: d2 :: '>' :: rest))

/-- The declarative reading of the whole scan: walking the document left to
right, each position either starts a cell match — whose nonempty,
markup-free inner text is emitted and whose whole extent is skipped — or
starts no match and is passed over.  Cells with empty inner text or nested
markup admit no `TdDecomp` and are therefore omitted. -/
inductive TdCells : List Char → List (List Char) → Prop where
  | nil : TdCells [] []
  | found : ∀ c s cell rest out, TdDecomp (c :: s) cell rest → TdCells rest out →
      TdCells (c :: s) (cell :: out)
  | skip : ∀ c s out, (∀ cell rest, ¬ TdDecomp (c :: s) cell rest) → TdCells s out →
      TdCells (c :: s) out

/-! ### Helper lemmas on `takeWhile`, `dropWhile` and the scanners -/

lemma takeWhile_dropWhile_split {α : Type} (p : α → Bool) (a b : List α)
    (ha : ∀ c ∈ a, p c = true) (hb : ∀ c, b.head? = some c → p c = false) :
    (a ++ b).takeWhile p = a ∧ (a ++ b).dropWhile p = b := by
  induction a with
  | nil =>
    cases b with
    | nil => simp
    | cons x xs =>
      have hx : p x = false := hb x rfl
      simp [List.takeWhile_cons, List.dropWhile_cons, hx]
  | cons x xs ih =>
    have hx : p x = true := ha x (by simp)
    have ih2 := ih (fun c hc => ha c (by simp [hc]))
    simp [List.takeWhile_cons, List.dropWhile_cons, hx, ih2.1, ih2.2]

lemma head_dropWhile_not {α : Type} (p : α → Bool) (l : List α) :
    ∀ c, (l.dropWhile p).head? = some c → p c = false := by
  induction l with
  | nil => intro c h; simp at h
  | cons x xs ih =>
    intro c h
    by_cases hx : p x = true
    · rw [List.dropWhile_cons, if_pos hx] at h
      exact ih c h
    · rw [List.dropWhile_cons, if_neg hx] at h
      simp at h
      rw [← h]
      exact Bool.eq_false_iff.mpr hx

lemma dropAttrs_append (a r : List Char) (ha : ∀ c ∈ a, c ≠ '>') :
    dropAttrs (a ++ '>' :: r) = some r := by
  induction a with
  | nil => simp [dropAttrs]
  | cons c t ih =>
    have hc : c ≠ '>' := ha c (by simp)
    simp only [List.cons_append, dropAttrs, if_neg hc]
    exact ih (fun x hx => ha x (by simp [hx]))

lemma dropAttrs_eq_some {s r : List Char} :
    dropAttrs s = some r ↔ ∃ a, (∀ c ∈ a, c ≠ '>') ∧ s = a ++ '>' :: r := by
  constructor
  · intro h
    induction s with
    | nil => simp [dropAttrs] at h
    | cons c t ih =>
      by_cases hc : c = '>'
      · subst hc
        simp only [dropAttrs, if_true, Option.some.injEq] at h
        exact ⟨[], by simp, by simp [h]⟩
      · simp only [dropAttrs, if_neg hc] at h
        obtain ⟨a, hmem, heq⟩ := ih h
        refine ⟨c :: a, ?_, by simp [heq]⟩
        intro x hx
        rcases List.mem_cons.mp hx with rfl | hx2
        · exact hc
        · exact hmem x hx2
  · rintro ⟨a, ha, rfl⟩
    exact dropAttrs_append a r ha

lemma dropCloseTd_eq_some {s r : List Char} :
    dropCloseTd s = some r ↔
      ∃ t d, isTC t ∧ isDC d ∧ s = '<' :: '/' :: t :: d :: '>' :: r := by
  constructor
  · intro h
    match s with
    | [] => simp [dropCloseTd] at h
    | [c0] => simp [dropCloseTd] at h
    | [c0, c1] => simp [dropCloseTd] at h
    | [c0, c1, c2] => simp [dropCloseTd] at h
    | [c0, c1, c2, c3] => simp [dropCloseTd] at h
    | c0 :: c1 :: c2 :: c3 :: c4 :: rest =>
      simp only [dropCloseTd] at h
      split_ifs at h with hcond
      · obtain ⟨h0, h1, h2, h3, h4⟩ := hcond
        cases h
        exact ⟨c2, c3, h2, h3, by rw [h0, h1, h4]⟩
  · rintro ⟨t, d, ht, hd, rfl⟩
    simp [dropCloseTd, ht, hd]

lemma matchTd_eq_some {s cell rest : List Char} :
    matchTd s = some (cell, rest) ↔ TdDecomp s cell rest := by
  constructor
  · intro h
    match s with
    | [] => simp [matchTd] at h
    | [c0] => simp [matchTd] at h
    | [c0, c1] => simp [matchTd] at h
    | c0 :: c1 :: c2 :: rest0 =>
      simp only [matchTd] at h
      split_ifs at h with hcond
      obtain ⟨h0, h1, h2⟩ := hcond
      split at h
      · cases h
      · rename_i afterGt hda
        split_ifs at h with hcell
        split at h
        · cases h
        · rename_i rest3 hdc
          rw [Option.some.injEq, Prod.mk.injEq] at h
          obtain ⟨hc, hr⟩ := h
          obtain ⟨a, hamem, haeq⟩ := dropAttrs_eq_some.mp hda
          obtain ⟨t2, d2, ht2, hd2, hrest2⟩ := dropCloseTd_eq_some.mp hdc
          refine ⟨c1, c2, a, t2, d2, h1, h2, hamem, ?_, ?_, ht2, hd2, ?_⟩
          · rw [← hc]; exact hcell
          · intro c hcmem
            have := List.mem_takeWhile_imp (hc ▸ hcmem)
            simpa using this
          · have hsplit : afterGt.takeWhile (fun c => c != '<') ++
                afterGt.dropWhile (fun c => c != '<') = afterGt :=
              List.takeWhile_append_dropWhile (fun c => c != '<') afterGt
            rw [h0, haeq, ← hsplit, hc, hrest2, hr]
  · rintro ⟨t1, d1, attrs, t2, d2, ht1, hd1, hattrs, hne, hcell, ht2, hd2, rfl⟩
    have hsplit := takeWhile_dropWhile_split (fun c => c != '<') cell
      ('<' :: '/' :: t2 :: d2 :: '>' :: rest)
      (fun c hc => by simpa using hcell c hc) (fun c hc => by simp at hc; simp [← hc])
    have hdc : dropCloseTd ('<' :: '/' :: t2 :: d2 :: '>' :: rest) = some rest := by
      simp [dropCloseTd, ht2, hd2]
    simp [matchTd, ht1, hd1,
      dropAttrs_append attrs (cell ++ '<' :: '/' :: t2 :: d2 :: '>' :: rest) hattrs,
      hsplit.1, hsplit.2, hne, hdc]

lemma matchTd_length {s : List Char} {p : List Char × List Char}
    (h : matchTd s = some p) : p.2.length < s.length := by
  obtain ⟨cell, rest⟩ := p
  rw [matchTd_eq_some] at h
  obtain ⟨t1, d1, attrs, t2, d2, _, _, _, _, _, _, _, rfl⟩ := h
  simp [List.length_append]
  omega

lemma findCellsGo_fuel : ∀ (n : ℕ) (s : List Char), s.length ≤ n →
    findCellsGo n s = findCells s := by
  intro n
  induction n using Nat.strong_induction_on with
  | _ n ih =>
    intro s hs
    cases s with
    | nil =>
      cases n with
      | zero => rfl
      | succ m => rfl
    | cons c t =>
      cases n with
      | zero => simp at hs
      | succ m =>
        have hm : t.length ≤ m := by simpa using hs
        show findCellsGo (m + 1) (c :: t) = findCellsGo (c :: t).length (c :: t)
        simp only [List.length_cons, findCellsGo]
        cases hmt : matchTd (c :: t) with
        | some p =>
          have hlen : p.2.length < t.length + 1 := by
            have := matchTd_length hmt
            simpa using this
          dsimp only
          rw [ih m (by omega) p.2 (by omega), ih t.length (by omega) p.2 (by omega)]
        | none =>
          dsimp only
          rw [ih m (by omega) t hm, ih t.length (by omega) t le_rfl]

lemma findCells_nil : findCells [] = [] := rfl

lemma findCells_cons (c : Char) (t : List Char) :
    findCells (c :: t) =
      match matchTd (c :: t) with
      | some p => p.1 :: findCells p.2
      | none => findCells t := by
  show findCellsGo (t.length + 1) (c :: t) = _
  simp only [findCellsGo]
  cases hmt : matchTd (c :: t) with
  | some p =>
    have hlen : p.2.length < t.length + 1 := by
      have := matchTd_length hmt
      simpa using this
    dsimp only
    rw [findCellsGo_fuel t.length p.2 (by omega)]
  | none =>
    dsimp only
    rw [findCellsGo_fuel t.length t le_rfl]

/-- Soundness: the executable scan realizes the declarative scan relation. -/
lemma tdCells_findCells (s : List Char) : TdCells s (findCells s) := by
  have H : ∀ (n : ℕ) (s : List Char), s.length ≤ n → TdCells s (findCells s) := by
    intro n
    induction n with
    | zero =>
      intro s hs
      have : s = [] := List.eq_nil_of_length_eq_zero (Nat.le_zero.mp hs)
      subst this
      exact TdCells.nil
    | succ m ih =>
      intro s hs
      cases s with
      | nil => exact TdCells.nil
      | cons c t =>
        rw [findCells_cons]
        cases hmt : matchTd (c :: t) with
        | some p =>
          obtain ⟨cell, rest⟩ := p
          have hlen : rest.length ≤ m := by
            have := matchTd_length hmt
            simp at this hs
            omega
          exact TdCells.found c t cell rest _ (matchTd_eq_some.mp hmt) (ih rest hlen)
        | none =>
          have hno : ∀ cell rest, ¬ TdDecomp (c :: t) cell rest := by
            intro cell rest hd
            rw [← matchTd_eq_some] at hd
            rw [hmt] at hd
            cases hd
          have hlen : t.length ≤ m := by simpa using hs
          exact TdCells.skip c t _ hno (ih t hlen)
  exact H s.length s le_rfl

/-- The declarative scan relation is deterministic and therefore pins down
the executable scan's output exactly. -/
lemma tdCells_unique {s : List Char} {out : List (List Char)}
    (h : TdCells s out) : out = findCells s := by
  induction h with
  | nil => rfl
  | found c t cell rest out hd _ ih =>
    rw [findCells_cons]
    have hm : matchTd (c :: t) = some (cell, rest) := matchTd_eq_some.mpr hd
    rw [hm]
    dsimp only
    rw [ih]
  | skip c t out hns _ ih =>
    rw [findCells_cons]
    have hm : matchTd (c :: t) = none := by
      cases hm2 : matchTd (c :: t) with
      | none => rfl
      | some p =>
        obtain ⟨cell, rest⟩ := p
        exact absurd (matchTd_eq_some.mp hm2) (hns cell rest)
    rw [hm]
    exact ih

/-- Every emitted cell is nonempty and free of markup-open characters. -/
lemma tdCells_mem {s : List Char} {out : List (List Char)} (h : TdCells s out) :
    ∀ cell ∈ out, cell ≠ [] ∧ ∀ c ∈ cell, c ≠ '<' := by
  induction h with
  | nil => intro cell hc; simp at hc
  | found c t cell rest out hd _ ih =>
    intro x hx
    rcases List.mem_cons.mp hx with rfl | hx2
    · obtain ⟨t1, d1, attrs, t2, d2, _, _, _, hne, hmem, _, _, _⟩ := hd
      exact ⟨hne, hmem⟩
    · exact ih x hx2
  | skip c t out hns _ ih => exact ih

/-! ### Characterization of the timestamp search -/

lemma matchCaption_eq_some {s cap : List Char} :
    matchCaption s = some cap ↔
      cap ≠ [] ∧ (∀ c ∈ cap, c ≠ '<' ∧ c ≠ '\n') ∧
      ∃ rest, s = captionChars ++ cap ++ rest ∧
        ∀ c, rest.head? = some c → (c = '<' ∨ c = '\n') := by
  constructor
  · intro h
    unfold matchCaption at h
    dsimp only at h
    split_ifs at h with htake hcap
    rw [Option.some.injEq] at h
    subst h
    refine ⟨hcap, ?_, (s.drop captionChars.length).dropWhile
        (fun c => c != '<' && c != '\n'), ?_, ?_⟩
    · intro c hc
      have := List.mem_takeWhile_imp hc
      simp at this
      exact this
    · conv_lhs => rw [← List.take_append_drop captionChars.length s]
      rw [htake, List.append_assoc]
      congr 1
      rw [List.takeWhile_append_dropWhile]
    · intro c hc
      have := head_dropWhile_not (fun c => c != '<' && c != '\n') _ c hc
      simp at this
      by_cases h1 : c = '<'
      · exact Or.inl h1
      · exact Or.inr (this h1)
  · rintro ⟨hne, hmem, rest, rfl, hhead⟩
    have hsplit := takeWhile_dropWhile_split (fun c => c != '<' && c != '\n') cap rest
      (fun c hc => by
        have := hmem c hc
        simp [this.1, this.2])
      (fun c hc => by
        rcases hhead c hc with rfl | rfl <;> simp)
    unfold matchCaption
    dsimp only
    rw [List.append_assoc]
    rw [if_pos (by rw [List.take_left])]
    rw [List.drop_left]
    rw [hsplit.1, if_neg hne]

lemma searchCaption_some {s cap : List Char} (h : searchCaption s = some cap) :
    cap ≠ [] ∧ (∀ c ∈ cap, c ≠ '<' ∧ c ≠ '\n') ∧
    ∃ pre rest, s = pre ++ captionChars ++ cap ++ rest ∧
      ∀ c, rest.head? = some c → (c = '<' ∨ c = '\n') := by
  induction s with
  | nil => simp [searchCaption] at h
  | cons c t ih =>
    rw [searchCaption] at h
    cases hm : matchCaption (c :: t) with
    | some cap0 =>
      rw [hm] at h
      dsimp only at h
      rw [Option.some.injEq] at h
      subst h
      obtain ⟨hne, hmem, rest, heq, hhead⟩ := matchCaption_eq_some.mp hm
      exact ⟨hne, hmem, [], rest, by simpa using heq, hhead⟩
    | none =>
      rw [hm] at h
      dsimp only at h
      obtain ⟨hne, hmem, pre, rest, heq, hhead⟩ := ih h
      exact ⟨hne, hmem, c :: pre, rest, by simp [heq], hhead⟩

lemma searchCaption_none (s : List Char)
    (hno : ¬ ∃ pre c rest, s = pre ++ captionChars ++ c :: rest ∧ c ≠ '<' ∧ c ≠ '\n') :
    searchCaption s = none := by
  induction s with
  | nil => rfl
  | cons c t ih =>
    rw [searchCaption]
    have hm : matchCaption (c :: t) = none := by
      cases hm2 : matchCaption (c :: t) with
      | none => rfl
      | some cap =>
        obtain ⟨hne, hmem, rest, heq, _⟩ := matchCaption_eq_some.mp hm2
        cases cap with
        | nil => exact absurd rfl hne
        | cons c0 cap2 =>
          refine absurd ⟨[], c0, cap2 ++ rest, ?_, (hmem c0 (by simp)).1,
            (hmem c0 (by simp)).2⟩ hno
          simpa using heq
    rw [hm]
    dsimp only
    apply ih
    rintro ⟨pre, c0, rest, heq, hc1, hc2⟩
    exact hno ⟨c :: pre, c0, rest, by simp [heq], hc1, hc2⟩

/-! ### Association-list lookup lemmas for the zone table -/

lemma lookup_val_mem {l : List (String × ℕ)} {z : String} {k : ℕ}
    (h : l.lookup z = some k) : k ∈ l.map Prod.snd := by
  induction l with
  | nil => simp [List.lookup] at h
  | cons a t ih =>
    obtain ⟨key, v⟩ := a
    cases hbeq : (z == key) with
    | true =>
      simp only [List.lookup, hbeq, Option.some.injEq] at h
      simp [h]
    | false =>
      simp only [List.lookup, hbeq] at h
      have := ih h
      simp [this]

lemma lookup_none_keys {l : List (String × ℕ)} {z : String}
    (h : z ∉ l.map Prod.fst) : l.lookup z = none := by
  induction l with
  | nil => rfl
  | cons a t ih =>
    obtain ⟨key, v⟩ := a
    have hz : z ≠ key := by
      intro hc
      exact h (by simp [hc])
    have hbeq : (z == key) = false := beq_eq_false_iff_ne.mpr hz
    simp only [List.lookup, hbeq]
    exact ih (fun hc => h (by simp at hc ⊢; exact Or.inr hc))

/-- One accumulator cycle never decreases the total when the price, the
sellback percentage and any parsed export reading are nonnegative. -/
lemma step_total_mono (b : Bool) (i : CycleInput) (st : EarningsState)
    (hp : 0 ≤ i.price_mwh) (hsp : 0 ≤ i.sellback_percent)
    (hex : 0 ≤ (i.export_state.bind parseFloat).getD 0) :
    st.total ≤ (handleCoordinatorUpdate b i st).total := by
  obtain ⟨es, p, sp⟩ := i
  dsimp only at hp hsp hex
  cases b with
  | false => exact le_refl _
  | true =>
    cases es with
    | none => exact le_refl _
    | some s =>
      unfold handleCoordinatorUpdate
      rw [if_pos rfl]
      dsimp only
      by_cases hsent : s = "unknown".toList ∨ s = "unavailable".toList
      · rw [if_pos hsent]
      · rw [if_neg hsent]
        cases hpf : parseFloat s with
        | none => exact le_refl _
        | some cur =>
          dsimp only
          have hcur : 0 ≤ cur := by
            rw [Option.some_bind, hpf] at hex
            simpa using hex
          have hdelta : 0 ≤ (if cur - st.last_export < 0 then cur else cur - st.last_export) := by
            split_ifs with hneg
            · exact hcur
            · linarith [not_lt.mp hneg]
          have hrate : 0 ≤ p / 1000 * (sp / 100) :=
            mul_nonneg (div_nonneg hp (by norm_num)) (div_nonneg hsp (by norm_num))
          exact le_add_of_nonneg_right (mul_nonneg hdelta hrate)

/-! ### Concrete sample documents for the witnesses -/

/-- A well-formed sample document: one 17-cell row with pairwise distinct
prices (column k holds the string of `10 * k`) and no timestamp caption. -/
def sampleHtml : List Char :=
  ("<td>10/01/2025</td><td>1015</td><td>20</td><td>30</td><td>40</td><td>50</td>" ++
   "<td>60</td><td>70</td><td>80</td><td>90</td><td>100</td><td>110</td><td>120</td>" ++
   "<td>130</td><td>140</td><td>150</td><td>160</td>").toList

/-- A 17-cell sample document whose price cells are all non-numeric. -/
def sampleBadHtml : List Char :=
  ("<td>10/01/2025</td><td>1015</td><td>N/A</td><td>N/A</td><td>N/A</td><td>N/A</td>" ++
   "<td>N/A</td><td>N/A</td><td>N/A</td><td>N/A</td><td>N/A</td><td>N/A</td><td>N/A</td>" ++
   "<td>N/A</td><td>N/A</td><td>N/A</td><td>N/A</td>").toList

/-- A sample document containing a timestamp caption. -/
def captionedHtml : List Char := "x Last Updated: Oct 01, 2025 10:15<br>".toList

/-! ### The claims -/

/-- C1: on any document with at least 17 extracted cells, a cycle takes the
final 17 cells as the most recent row, copies cell 0 as the date and cell 1
as the time, and returns as price the parsed value of the cell at the
configured zone's fixed offset; the Zone Resolver table maps the 15 known
zones to exactly the offsets 2..16 in the stated order, all within [2,16]. -/
theorem zone_row_extraction :
    (zone_map.lookup "HB_BUSAVG" = some 2 ∧ zone_map.lookup "HB_HOUSTON" = some 3 ∧
     zone_map.lookup "HB_HUBAVG" = some 4 ∧ zone_map.lookup "HB_NORTH" = some 5 ∧
     zone_map.lookup "HB_PAN" = some 6 ∧ zone_map.lookup "HB_SOUTH" = some 7 ∧
     zone_map.lookup "HB_WEST" = some 8 ∧ zone_map.lookup "LZ_AEN" = some 9 ∧
     zone_map.lookup "LZ_CPS" = some 10 ∧ zone_map.lookup "LZ_HOUSTON" = some 11 ∧
     zone_map.lookup "LZ_LCRA" = some 12 ∧ zone_map.lookup "LZ_NORTH" = some 13 ∧
     zone_map.lookup "LZ_RAYBN" = some 14 ∧ zone_map.lookup "LZ_SOUTH" = some 15 ∧
     zone_map.lookup "LZ_WEST" = some 16) ∧
    (∀ z k, zone_map.lookup z = some k → 2 ≤ k ∧ k ≤ 16) ∧
    (∀ zone k html p, zone_map.lookup zone = some k →
      17 ≤ (findCells html).length →
      parseFloat ((lastRow (findCells html)).getD k []) = some p →
      updateData zone html = .ok
        { price_mwh := p, timestamp := searchCaption html,
          date := (lastRow (findCells html)).getD 0 [],
          time := (lastRow (findCells html)).getD 1 [] }) := by
  refine ⟨by decide, ?_, ?_⟩
  · intro z k h
    have hm := lookup_val_mem h
    have hv : zone_map.map Prod.snd = [2, 3, 4, 5, 6, 7, 8, 9, 10, 11, 12, 13, 14, 15, 16] :=
      rfl
    rw [hv] at hm
    simp at hm
    rcases hm with h | h | h | h | h | h | h | h | h | h | h | h | h | h | h <;> omega
  · intro zone k html p hz h17 hp
    unfold updateData
    dsimp only
    rw [if_neg (by omega)]
    have hcol : zoneCol zone = k := by simp [zoneCol, hz]
    rw [hcol, hp]

/-- C1 witness: on the distinct-price sample row, zone LZ_WEST (offset 16)
yields exactly the price in column 16. -/
theorem zone_row_extraction_witness :
    zone_map.lookup "LZ_WEST" = some 16 ∧
    17 ≤ (findCells sampleHtml).length ∧
    updateData "LZ_WEST" sampleHtml = .ok
      { price_mwh := 160, timestamp := searchCaption sampleHtml,
        date := (lastRow (findCells sampleHtml)).getD 0 [],
        time := (lastRow (findCells sampleHtml)).getD 1 [] } :=
  ⟨by decide, by decide,
    zone_row_extraction.2.2 "LZ_WEST" 16 sampleHtml 160 (by decide) (by decide) (by decide)⟩

/-- C2: on any document with fewer than 17 extracted cells, the cycle fails
with `MalformedSourceError` and returns no reading at all. -/
theorem short_row_malformed (zone : String) (html : List Char)
    (h : (findCells html).length < 17) :
    updateData zone html = .error .malformedSource := by
  unfold updateData
  dsimp only
  rw [if_pos h]

/-- C2 witness: a one-cell document fails with `MalformedSourceError`. -/
theorem short_row_malformed_witness :
    (findCells ("<td>1</td>".toList)).length < 17 ∧
    updateData "LZ_NORTH" ("<td>1</td>".toList) = .error .malformedSource :=
  ⟨by decide, short_row_malformed "LZ_NORTH" ("<td>1</td>".toList) (by decide)⟩

/-- C3: when the export reading is present and numeric, one accumulator
cycle computes `delta = current - last` (or `current` when that is
negative), a rate of `price/1000 * percent/100` from the current price,
adds `delta * rate` to the total and stores the current reading; in
particular 100→150 at price 20 and 90 percent adds 0.9, and 500→10
credits a delta of 10. -/
theorem earnings_step (st : EarningsState) (s : List Char) (cur p sp : ℚ)
    (h1 : s ≠ "unknown".toList) (h2 : s ≠ "unavailable".toList)
    (hp : parseFloat s = some cur) :
    handleCoordinatorUpdate true ⟨some s, p, sp⟩ st =
      { last_export := cur,
        total := st.total +
          (if cur - st.last_export < 0 then cur else cur - st.last_export) *
            (p / 1000 * (sp / 100)) } ∧
    handleCoordinatorUpdate true ⟨some ("150".toList), 20, 90⟩ ⟨100, 0⟩ =
      ⟨150, 9 / 10⟩ ∧
    handleCoordinatorUpdate true ⟨some ("10".toList), 20, 90⟩ ⟨500, 0⟩ =
      ⟨10, 9 / 50⟩ := by
  refine ⟨?_, by decide, by decide⟩
  have hsent : ¬(s = "unknown".toList ∨ s = "unavailable".toList) := by
    rintro (hc | hc)
    · exact h1 hc
    · exact h2 hc
  unfold handleCoordinatorUpdate
  rw [if_pos rfl]
  dsimp only
  rw [if_neg hsent, hp]

/-- C3 witness: the transition equation at the concrete 100→150 cycle. -/
theorem earnings_step_witness :
    handleCoordinatorUpdate true ⟨some ("150".toList), 20, 90⟩ ⟨100, 0⟩ =
      { last_export := 150,
        total := (0 : ℚ) +
          (if (150 : ℚ) - 100 < 0 then (150 : ℚ) else 150 - 100) *
            (20 / 1000 * (90 / 100)) } :=
  (earnings_step ⟨100, 0⟩ ("150".toList) 150 20 90 (by decide) (by decide) (by decide)).1

/-- C4 counterexample: the claim that the accumulated total never
decreases is false on the code — the spec allows negative prices, and one
cycle from the default state at price −20 strictly decreases the total. -/
theorem earnings_total_decrease_example :
    (runCycles true [⟨some ("50".toList), -20, 90⟩] initialEarnings).total
      < initialEarnings.total := by decide

/-- C4 (amended): over any sequence of cycles in which every cycle has a
nonnegative price, a nonnegative sellback percentage and a nonnegative
numeric export reading (when one parses), the accumulated total is
monotonically non-decreasing. -/
theorem earnings_total_mono (b : Bool) (inputs : List CycleInput) (st : EarningsState)
    (h : ∀ i ∈ inputs, 0 ≤ i.price_mwh ∧ 0 ≤ i.sellback_percent ∧
      0 ≤ (i.export_state.bind parseFloat).getD 0) :
    st.total ≤ (runCycles b inputs st).total := by
  induction inputs generalizing st with
  | nil => exact le_refl _
  | cons i t ih =>
    have h1 := h i (by simp)
    have hstep := step_total_mono b i st h1.1 h1.2.1 h1.2.2
    have hrest := ih (handleCoordinatorUpdate b i st) (fun j hj => h j (by simp [hj]))
    exact le_trans hstep hrest

/-- C4 witness: one valid cycle from the default state does not decrease
the total. -/
theorem earnings_total_mono_witness :
    initialEarnings.total ≤
      (runCycles true [⟨some ("150".toList), 20, 90⟩] initialEarnings).total :=
  earnings_total_mono true [⟨some ("150".toList), 20, 90⟩] initialEarnings (by decide)

/-- C5: any configured zone outside the 15 known identifiers resolves to
the default LZ_NORTH column 13 instead of failing, and the whole cycle
behaves exactly as for LZ_NORTH. -/
theorem unknown_zone_fallback (zone : String)
    (h : zone ∉ zone_map.map Prod.fst) :
    zoneCol zone = 13 ∧ zoneCol "LZ_NORTH" = 13 ∧
    ∀ html, updateData zone html = updateData "LZ_NORTH" html := by
  have hl : zone_map.lookup zone = none := lookup_none_keys h
  have hz : zoneCol zone = 13 := by simp [zoneCol, hl]
  have hn : zoneCol "LZ_NORTH" = 13 := by decide
  refine ⟨hz, hn, fun html => ?_⟩
  unfold updateData
  rw [hz, hn]

/-- C5 witness: the unknown zone string BOGUS falls back to column 13 and
produces LZ_NORTH's reading on the sample row. -/
theorem unknown_zone_fallback_witness :
    "BOGUS" ∉ zone_map.map Prod.fst ∧ zoneCol "BOGUS" = 13 ∧
    updateData "BOGUS" sampleHtml = updateData "LZ_NORTH" sampleHtml :=
  ⟨by decide, (unknown_zone_fallback "BOGUS" (by decide)).1,
    (unknown_zone_fallback "BOGUS" (by decide)).2.2 sampleHtml⟩

/-- C6: the three derived metrics are exactly the stated rounded formulas
(2, 5 and 2 decimal places respectively), and the concrete rounding
contract holds: price 14.72 gives 1.47 cents/kWh and, at 90 percent,
a sellback rate of 0.01325. -/
theorem derived_metric_rounding (p sp : ℚ) :
    priceCentsKwhValue p = pyRound (p / 1000 * 100) 2 ∧
    sellbackRateValue p sp = pyRound (p / 1000 * (sp / 100)) 5 ∧
    sellbackCentsValue p sp = pyRound (p / 1000 * (sp / 100) * 100) 2 ∧
    priceCentsKwhValue (14.72 : ℚ) = (1.47 : ℚ) ∧
    sellbackRateValue (14.72 : ℚ) 90 = (0.01325 : ℚ) :=
  ⟨rfl, rfl, rfl, by decide, by decide⟩

/-- C7: when the export reading is absent or reads "unknown"/"unavailable",
the accumulator cycle changes nothing: total and last reading are kept
exactly. -/
theorem skip_unavailable_export (p sp : ℚ) (st : EarningsState) :
    handleCoordinatorUpdate true ⟨none, p, sp⟩ st = st ∧
    handleCoordinatorUpdate true ⟨some ("unknown".toList), p, sp⟩ st = st ∧
    handleCoordinatorUpdate true ⟨some ("unavailable".toList), p, sp⟩ st = st := by
  refine ⟨rfl, ?_, ?_⟩ <;> simp [handleCoordinatorUpdate]

/-- C8: on any document with at least 17 extracted cells whose selected
cell does not parse as a float, the cycle fails with `PriceParseError` and
returns no reading. -/
theorem unparseable_cell_priceParse (zone : String) (html : List Char)
    (h17 : 17 ≤ (findCells html).length)
    (hp : parseFloat ((lastRow (findCells html)).getD (zoneCol zone) []) = none) :
    updateData zone html = .error .priceParse := by
  unfold updateData
  dsimp only
  rw [if_neg (by omega), hp]

/-- C8 witness: a 17-cell row whose cells read N/A fails with
`PriceParseError`. -/
theorem unparseable_cell_priceParse_witness :
    17 ≤ (findCells sampleBadHtml).length ∧
    parseFloat ((lastRow (findCells sampleBadHtml)).getD (zoneCol "LZ_NORTH") []) = none ∧
    updateData "LZ_NORTH" sampleBadHtml = .error .priceParse :=
  ⟨by decide, by decide,
    unparseable_cell_priceParse "LZ_NORTH" sampleBadHtml (by decide) (by decide)⟩

/-- C9: the extractor captures as timestamp the nonempty span after the
caption `Last Updated: ` up to the next `<` or line break; a document with
no such caption yields an absent timestamp, and the cycle still succeeds
(with `timestamp = none`) whenever cells and price are in order. -/
theorem timestamp_caption (html : List Char) :
    (∀ cap, searchCaption html = some cap →
      cap ≠ [] ∧ (∀ c ∈ cap, c ≠ '<' ∧ c ≠ '\n') ∧
      ∃ pre rest, html = pre ++ captionChars ++ cap ++ rest ∧
        ∀ c, rest.head? = some c → (c = '<' ∨ c = '\n')) ∧
    ((¬ ∃ pre c rest, html = pre ++ captionChars ++ c :: rest ∧ c ≠ '<' ∧ c ≠ '\n') →
      searchCaption html = none) ∧
    (∀ zone r, updateData zone html = .ok r → r.timestamp = searchCaption html) ∧
    (searchCaption html = none → ∀ zone p,
      17 ≤ (findCells html).length →
      parseFloat ((lastRow (findCells html)).getD (zoneCol zone) []) = some p →
      updateData zone html = .ok
        { price_mwh := p, timestamp := none,
          date := (lastRow (findCells html)).getD 0 [],
          time := (lastRow (findCells html)).getD 1 [] }) := by
  refine ⟨fun cap h => searchCaption_some h, searchCaption_none html, ?_, ?_⟩
  · intro zone r h
    unfold updateData at h
    dsimp only at h
    by_cases h17 : (findCells html).length < 17
    · rw [if_pos h17] at h
      exact absurd h (by simp)
    · rw [if_neg h17] at h
      cases hp : parseFloat ((lastRow (findCells html)).getD (zoneCol zone) []) with
      | none =>
        rw [hp] at h
        exact absurd h (by simp)
      | some p =>
        rw [hp] at h
        dsimp only at h
        injection h with h2
        rw [← h2]
  · intro hnone zone p h17 hp
    unfold updateData
    dsimp only
    rw [if_neg (by omega), hp, hnone]

/-- C9 witness: the caption in a sample document is captured exactly, and a
caption-free 17-cell document still yields a reading with absent
timestamp. -/
theorem timestamp_caption_witness :
    ("Oct 01, 2025 10:15".toList ≠ [] ∧
      (∀ c ∈ "Oct 01, 2025 10:15".toList, c ≠ '<' ∧ c ≠ '\n') ∧
      ∃ pre rest, captionedHtml = pre ++ captionChars ++ "Oct 01, 2025 10:15".toList ++ rest ∧
        ∀ c, rest.head? = some c → (c = '<' ∨ c = '\n')) ∧
    updateData "LZ_NORTH" sampleHtml = .ok
      { price_mwh := 130, timestamp := none,
        date := (lastRow (findCells sampleHtml)).getD 0 [],
        time := (lastRow (findCells sampleHtml)).getD 1 [] } :=
  ⟨(timestamp_caption captionedHtml).1 ("Oct 01, 2025 10:15".toList) (by decide),
    (timestamp_caption sampleHtml).2.2.2 (by decide) "LZ_NORTH" 130 (by decide) (by decide)⟩

/-- C10: the extracted cell sequence is exactly the inner texts of the
`<td ...>...</td>` occurrences met in a left-to-right scan of the document,
keeping only cells whose inner text is nonempty and free of `<` — cells
with empty inner text or nested markup are omitted. -/
theorem cells_scan_exactly (html : List Char) :
    TdCells html (findCells html) ∧
    (∀ out, TdCells html out → out = findCells html) ∧
    ∀ cell ∈ findCells html, cell ≠ [] ∧ ∀ c ∈ cell, c ≠ '<' :=
  ⟨tdCells_findCells html, fun _ h => tdCells_unique h, tdCells_mem (tdCells_findCells html)⟩

/-- C10 witness: on a document with one good cell, one empty cell and one
nested-markup cell, the scan relation holds of the computed output, and the
surviving cell is nonempty and markup-free. -/
theorem cells_scan_exactly_witness :
    TdCells ("<td>a</td><td></td><td>b<i>c</i></td>".toList)
      (findCells ("<td>a</td><td></td><td>b<i>c</i></td>".toList)) ∧
    (['a'] ≠ [] ∧ ∀ c ∈ ['a'], c ≠ '<') :=
  ⟨(cells_scan_exactly ("<td>a</td><td></td><td>b<i>c</i></td>".toList)).1,
    (cells_scan_exactly ("<td>a</td><td></td><td>b<i>c</i></td>".toList)).2.2 ['a'] (by decide)⟩

end Ercot
